import Mathlib

/-!
Verification of the satisfaculty course-scheduling repository.

The Python sources are shallowly embedded as Lean definitions:
`satisfaculty/utils.py` (time conversions, day-pattern expansion),
`satisfaculty/constraints.py` (constraint classes over a scheduler model),
`satisfaculty/objectives.py` (objective classes, auxiliary-variable
memoization) and `src/scheduler.py` (the standalone ILP scheduler).
Parts of the package that live in `satisfaculty/scheduler.py` (not part of
the sources at hand) are modelled from the specification and are marked as
such in their doc comments.
-/

namespace Satisfaculty

/-! ## utils.py -/

/-- One character of a Python string digit: its numeric value (`int` parsing
reads characters as `ord(c) - ord('0')`). -/
def charVal (c : Char) : Nat := c.toNat - 48

/-- Python `int(s)` on a plain decimal literal: defined when `s` is a
non-empty string of digits, otherwise a `ValueError` (modelled as `none`). -/
def parseNat (l : List Char) : Option Nat :=
  if l ≠ [] ∧ l.all Char.isDigit then
    some (l.foldl (fun a c => a * 10 + charVal c) 0)
  else none

/-- Python `str(n)` for a natural number: its decimal digit characters. -/
def natStr (n : Nat) : List Char :=
  if n = 0 then ['0'] else (Nat.digits 10 n).reverse.map Nat.digitChar

/-- Python `f"{n:02d}"`: pad the decimal rendering to width two with `'0'`. -/
def pad2 (n : Nat) : List Char :=
  if n < 10 then '0' :: natStr n else natStr n

/-- Python `str.split(':')` on the character list of a string. -/
def splitColon : List Char → List (List Char)
  | [] => [[]]
  | c :: rest =>
    if c = ':' then [] :: splitColon rest
    else
      match splitColon rest with
      | [] => [[c]]
      | g :: gs => (c :: g) :: gs

/-- `minutes_to_time` from `satisfaculty/utils.py`: convert minutes since
midnight to a time string `HH:MM` (via `f"{h:02d}:{m:02d}"`). -/
def minutes_to_time (minutes : Nat) : String :=
  String.mk (pad2 (minutes / 60) ++ ':' :: pad2 (minutes % 60))

/-- `time_to_minutes` from `satisfaculty/utils.py`: convert a time string
`HH:MM` to minutes since midnight; `h, m = map(int, time_str.split(':'))`
raises unless the split yields exactly two parseable fields (modelled as
`none`). -/
def time_to_minutes (time_str : String) : Option Nat :=
  match splitColon time_str.data with
  | [hs, ms] =>
    match parseNat hs, parseNat ms with
    | some h, some m => some (h * 60 + m)
    | _, _ => none
  | _ => none

/-- `expand_days_any` from `satisfaculty/utils.py`: split a day-pattern
string into day tokens, recognising the two-character token `TH` as a unit. -/
def expand_days_any : List Char → List String
  | 'T' :: 'H' :: rest => "TH" :: expand_days_any rest
  | c :: rest => String.mk [c] :: expand_days_any rest
  | [] => []

/-! ### Round-trip lemmas for the time conversions (claim C10) -/

theorem natStr_ne_nil (n : Nat) : natStr n ≠ [] := by
  unfold natStr
  split
  · simp
  · simp [Nat.digits_ne_nil_iff_ne_zero, *]

theorem natStr_all_digits (n : Nat) : (natStr n).all Char.isDigit = true := by
  unfold natStr
  split
  · decide
  · simp only [List.all_eq_true, List.mem_map, List.mem_reverse]
    rintro c ⟨d, hd, rfl⟩
    have hlt : d < 10 := Nat.digits_lt_base (by norm_num) hd
    interval_cases d <;> decide

theorem charVal_digitChar {d : Nat} (hd : d < 10) :
    charVal (Nat.digitChar d) = d := by
  interval_cases d <;> decide

theorem foldl_step_reverse (L : List Nat) :
    L.reverse.foldl (fun a d => a * 10 + d) 0 = Nat.ofDigits 10 L := by
  induction L with
  | nil => simp [Nat.ofDigits]
  | cons d T ih =>
    simp only [List.reverse_cons, List.foldl_append, List.foldl_cons,
      List.foldl_nil, ih, Nat.ofDigits_cons]
    ring

theorem foldl_natStr (n : Nat) :
    (natStr n).foldl (fun a c => a * 10 + charVal c) 0 = n := by
  by_cases h : n = 0
  · subst h; decide
  · unfold natStr
    rw [if_neg h, List.foldl_map]
    have hcong : ∀ (a : Nat) (d : Nat), d ∈ Nat.digits 10 n →
        a * 10 + charVal (Nat.digitChar d) = a * 10 + d := by
      intro a d hd
      rw [charVal_digitChar (Nat.digits_lt_base (by norm_num) hd)]
    calc ((Nat.digits 10 n).reverse.foldl
            (fun a d => a * 10 + charVal (Nat.digitChar d)) 0)
        = (Nat.digits 10 n).reverse.foldl (fun a d => a * 10 + d) 0 := by
          apply List.foldl_ext
          intro a d hd
          exact hcong a d (List.mem_reverse.mp hd)
      _ = n := by rw [foldl_step_reverse, Nat.ofDigits_digits]

theorem parseNat_natStr (n : Nat) : parseNat (natStr n) = some n := by
  unfold parseNat
  rw [if_pos ⟨natStr_ne_nil n, natStr_all_digits n⟩, foldl_natStr]

theorem pad2_all_digits (n : Nat) : (pad2 n).all Char.isDigit = true := by
  unfold pad2
  split
  · simpa using natStr_all_digits n
  · exact natStr_all_digits n

theorem parseNat_pad2 (n : Nat) : parseNat (pad2 n) = some n := by
  unfold pad2
  split
  · unfold parseNat
    rw [if_pos ⟨by simp, by simpa using natStr_all_digits n⟩]
    simp only [List.foldl_cons]
    have h0 : (0 : Nat) * 10 + charVal '0' = 0 := by decide
    rw [h0, foldl_natStr]
  · exact parseNat_natStr n

theorem splitColon_no_colon {b : List Char} (hb : ∀ c ∈ b, c ≠ ':') :
    splitColon b = [b] := by
  induction b with
  | nil => rfl
  | cons c rest ih =>
    have hc : c ≠ ':' := hb c (by simp)
    have hrest : ∀ x ∈ rest, x ≠ ':' := fun x hx => hb x (by simp [hx])
    simp only [splitColon, if_neg hc, ih hrest]

theorem splitColon_append {a b : List Char} (ha : ∀ c ∈ a, c ≠ ':') :
    splitColon (a ++ ':' :: b) = a :: splitColon b := by
  induction a with
  | nil => simp [splitColon]
  | cons c rest ih =>
    have hc : c ≠ ':' := ha c (by simp)
    have hrest : ∀ x ∈ rest, x ≠ ':' := fun x hx => ha x (by simp [hx])
    simp only [List.cons_append, splitColon, if_neg hc, List.append_eq, ih hrest]

theorem digits_no_colon {l : List Char} (h : l.all Char.isDigit = true) :
    ∀ c ∈ l, c ≠ ':' := by
  intro c hc
  have : c.isDigit = true := by
    rw [List.all_eq_true] at h
    exact h c hc
  intro hcol
  rw [hcol] at this
  exact absurd this (by decide)

/-- Claim C10: converting minutes since midnight to an `HH:MM` string and
back is the identity, for every natural number of minutes (no bound
`m < 1440` is required; hours of three or more digits print and parse
exactly the same way). -/
theorem time_to_minutes_minutes_to_time (m : Nat) :
    time_to_minutes (minutes_to_time m) = some m := by
  unfold time_to_minutes minutes_to_time
  rw [show (String.mk (pad2 (m / 60) ++ ':' :: pad2 (m % 60))).data
      = pad2 (m / 60) ++ ':' :: pad2 (m % 60) from rfl]
  rw [splitColon_append (digits_no_colon (pad2_all_digits (m / 60))),
    splitColon_no_colon (digits_no_colon (pad2_all_digits (m % 60)))]
  simp only [parseNat_pad2, Option.some.injEq]
  omega

/-! ## The time-overlap rule

`make_overlap_predicate` lives in `satisfaculty/scheduler.py`; its
day-and-time rule is inlined verbatim in `NoRoomOverlap.apply`
(`src/satisfaculty/constraints.py`, lines 76-83):
a candidate slot conflicts with the reference exactly when it covers one of
the reference's active days and `slot_start <= start_minutes and
slot_end > start_minutes - buffer_minutes`, with `buffer_minutes = 15`.
-/

/-- A loaded time slot: its set of active days (already expanded into day
tokens) and its start/end offsets in minutes since midnight. -/
structure Slot where
  days : List String
  startM : Int
  endM : Int

/-- `buffer_minutes = 15` from `NoRoomOverlap.apply`. -/
def buffer_minutes : Int := 15

/-- The overlap rule of `NoRoomOverlap.apply` (also the predicate produced
by `make_overlap_predicate`, per spec section 4.2): the candidate slot `s2`
overlaps the reference slot `s1` iff their day sets intersect and
`s2.start <= s1.start and s2.end > s1.start - buffer`. -/
def overlapRule (s1 s2 : Slot) : Bool :=
  s1.days.any (fun d => s2.days.contains d) &&
    decide (s2.startM ≤ s1.startM) &&
    decide (s1.startM - buffer_minutes < s2.endM)

/-- Claim C2, counterexample: two slots on the same day `M` with
`s2.start < s1.end` and `s2.end > s1.start - 15` (the claim's stated
sufficient condition for overlap) for which the code's rule returns
`false`, because the code instead requires `s2.start ≤ s1.start`.
Here `s1 = 9:00-10:50`, `s2 = 10:00-11:40`, both on `M`. -/
theorem overlap_claim_counterexample :
    ("M" ∈ (Slot.mk ["M"] 540 650).days ∧ "M" ∈ (Slot.mk ["M"] 600 700).days) ∧
    (Slot.mk ["M"] 600 700).startM < (Slot.mk ["M"] 540 650).endM ∧
    (Slot.mk ["M"] 540 650).startM - buffer_minutes < (Slot.mk ["M"] 600 700).endM ∧
    overlapRule (Slot.mk ["M"] 540 650) (Slot.mk ["M"] 600 700) = false := by
  decide

/-- Claim C2 (amended): the rule returns `false` whenever the two slots
share no common active day, regardless of times; and when they share a day
it returns `false` if `s2.end ≤ s1.start − 15`, and returns `true` if
`s2.start ≤ s1.start` and `s2.end > s1.start − 15` (the code compares the
candidate's start to the reference's start, not to the reference's end). -/
theorem overlapRule_correct (s1 s2 : Slot) :
    ((∀ d ∈ s1.days, d ∉ s2.days) → overlapRule s1 s2 = false) ∧
    ((∃ d ∈ s1.days, d ∈ s2.days) →
      (s2.endM ≤ s1.startM - buffer_minutes → overlapRule s1 s2 = false) ∧
      (s2.startM ≤ s1.startM → s1.startM - buffer_minutes < s2.endM →
        overlapRule s1 s2 = true)) := by
  constructor
  · intro h
    have hday : s1.days.any (fun d => s2.days.contains d) = false := by
      rw [List.any_eq_false]
      intro d hd
      simpa using h d hd
    unfold overlapRule
    rw [hday, Bool.false_and, Bool.false_and]
  · rintro ⟨d, hd1, hd2⟩
    have hday : s1.days.any (fun d => s2.days.contains d) = true := by
      rw [List.any_eq_true]
      exact ⟨d, hd1, by simpa using hd2⟩
    constructor
    · intro hend
      have hlt : decide (s1.startM - buffer_minutes < s2.endM) = false := by
        rw [decide_eq_false_iff_not]
        omega
      unfold overlapRule
      rw [hlt, Bool.and_false]
    · intro hstart hbuf
      unfold overlapRule
      rw [hday, Bool.true_and, decide_eq_true hstart, Bool.true_and,
        decide_eq_true hbuf]

/-- Witness for `overlapRule_correct`: at concrete slots, the no-shared-day
case yields `false` and the shared-day in-window case yields `true`. -/
theorem overlapRule_correct_witness :
    overlapRule (Slot.mk ["M"] 540 650) (Slot.mk ["T"] 540 650) = false ∧
    overlapRule (Slot.mk ["M"] 540 650) (Slot.mk ["M", "W"] 530 640) = true :=
  ⟨(overlapRule_correct (Slot.mk ["M"] 540 650) (Slot.mk ["T"] 540 650)).1
      (by decide),
   ((overlapRule_correct (Slot.mk ["M"] 540 650) (Slot.mk ["M", "W"] 530 640)).2
      ⟨"M", by decide, by decide⟩).2 (by decide) (by decide)⟩

/-! ## The scheduler model shared by constraints and objectives

`satisfaculty/constraints.py` and `satisfaculty/objectives.py` mutate a
shared scheduler object: its PuLP problem (a list of named linear rows),
the per-variable bounds, and the objective memoization cache. -/

/-- A DecisionKey `(course, room, time_slot)`. -/
abbrev Key := String × String × String

/-- A PuLP variable: either the binary decision variable `x[k]` of a
DecisionKey, or an auxiliary variable created by an objective (identified
by its PuLP name). -/
inductive Var where
  | dec : Key → Var
  | aux : String → Var
deriving DecidableEq

/-- A linear expression (`lpSum` of coefficient-variable terms). -/
abbrev LinExpr := List (Int × Var)

/-- A named linear row added to the PuLP problem: `lhs ≤ rhs + c` or
`lhs = rhs + c`. -/
inductive LinCon where
  | le (lhs rhs : LinExpr) (c : Int) (name : String)
  | eq (lhs rhs : LinExpr) (c : Int) (name : String)
deriving DecidableEq

/-- One row of `scheduler.courses_df` as read by the forcing constraints:
the course identifier and the optional `Force Room` / `Force Time Slot`
cells (`none` models a NaN cell). -/
structure CourseRow where
  course : String
  forceRoom : Option String
  forceSlot : Option String
deriving DecidableEq

/-- The scheduler state the constraint and objective `apply`/`evaluate`
methods read and mutate. -/
structure Scheduler where
  courses : List String
  rooms : List String
  time_slots : List String
  keys : List Key
  courses_df : List CourseRow
  enrollments : String → Int
  capacities : String → Int
  course_types : List (String × String)
  slot_days : String → List String
  upBound : Key → Int
  prob : List LinCon
  objective_cache : List ((String × List String × List String) × LinExpr)

/-- Modelled from the spec: `filter_keys` is defined in
`satisfaculty/scheduler.py`, which is not among the sources at hand; per
spec section 4.1 it returns the subsequence of DecisionKeys matching all
supplied equality filters and the optional predicate, in key-space order. -/
def filter_keys (keys : List Key) (course room time_slot : Option String)
    (pred : Option (Key → Bool)) : List Key :=
  keys.filter fun k =>
    (match course with | some c => decide (k.1 = c) | none => true) &&
    (match room with | some r => decide (k.2.1 = r) | none => true) &&
    (match time_slot with | some t => decide (k.2.2 = t) | none => true) &&
    (match pred with | some p => p k | none => true)

/-- Modelled from the spec: the Key Space of `satisfaculty/scheduler.py`
(not among the sources at hand) is the full Cartesian product of the
course, room and time-slot tables, in insertion order (spec section 3). -/
def cartesianKeys (courses rooms slots : List String) : List Key :=
  courses.flatMap fun c => rooms.flatMap fun r => slots.map fun t => (c, r, t)

/-! ## constraints.py -/

/-- The equality row `AssignAllCourses.apply` adds for one course:
`lpSum(x[k] for k in filter_keys(keys, course=course)) == 1`, named
`assign_course_{course}`. -/
def assignCourseCon (keys : List Key) (course : String) : LinCon :=
  LinCon.eq
    ((filter_keys keys (some course) none none none).map fun k =>
      ((1 : Int), Var.dec k))
    [] 1 ("assign_course_" ++ course)

/-- `AssignAllCourses.apply` from `src/satisfaculty/constraints.py`: for
every course add the equality row above and count it. -/
def AssignAllCourses.apply (scheduler : Scheduler) : Scheduler × Nat :=
  scheduler.courses.foldl
    (fun p course =>
      ({ p.1 with prob := p.1.prob ++ [assignCourseCon p.1.keys course] },
        p.2 + 1))
    (scheduler, 0)

/-- `RoomCapacity.apply` from `src/satisfaculty/constraints.py`: for every
DecisionKey whose course enrollment exceeds the room capacity, zero the
variable's upper bound (`scheduler.x[k].upBound = 0`) and count it; no
linear row is added. -/
def RoomCapacity.apply (scheduler : Scheduler) : Scheduler × Nat :=
  scheduler.keys.foldl
    (fun p k =>
      if p.1.enrollments k.1 > p.1.capacities k.2.1 then
        ({ p.1 with upBound := fun k' => if k' = k then 0 else p.1.upBound k' },
          p.2 + 1)
      else p)
    (scheduler, 0)

/-- Python `str.strip()`: drop leading and trailing whitespace. -/
def pyStrip (s : String) : String :=
  String.mk
    (((s.data.dropWhile Char.isWhitespace).reverse.dropWhile
      Char.isWhitespace).reverse)

/-- The rows `ForceRooms.apply` adds for one `courses_df` row: when the
`Force Room` cell is present (`pd.notna`) and non-blank after `strip()`,
one equality row pinning the course to that room; otherwise nothing.
There is no check that the room exists in the rooms table. -/
def forceRoomCons (keys : List Key) (row : CourseRow) : List LinCon :=
  match row.forceRoom with
  | some v =>
    if pyStrip v ≠ "" then
      [LinCon.eq
        ((filter_keys keys (some row.course) (some (pyStrip v)) none none).map
          fun k => ((1 : Int), Var.dec k))
        [] 1 ("force_room_" ++ row.course)]
    else []
  | none => []

/-- `ForceRooms.apply` from `src/satisfaculty/constraints.py`. The
`column_present` flag models `self.column not in df.columns`, which is the
only guard: with the column present, every row with a non-blank cell gets
its equality row added and counted. -/
def ForceRooms.apply (column_present : Bool) (scheduler : Scheduler) :
    Scheduler × Nat :=
  if !column_present then (scheduler, 0)
  else
    scheduler.courses_df.foldl
      (fun p row =>
        match forceRoomCons p.1.keys row with
        | [] => p
        | cons => ({ p.1 with prob := p.1.prob ++ cons }, p.2 + 1))
      (scheduler, 0)

/-- The rows `ForceTimeSlots.apply` adds for one `courses_df` row
(analogous to `forceRoomCons`, filtering on the time-slot field). -/
def forceSlotCons (keys : List Key) (row : CourseRow) : List LinCon :=
  match row.forceSlot with
  | some v =>
    if pyStrip v ≠ "" then
      [LinCon.eq
        ((filter_keys keys (some row.course) none (some (pyStrip v)) none).map
          fun k => ((1 : Int), Var.dec k))
        [] 1 ("force_time_slot_" ++ row.course)]
    else []
  | none => []

/-- `ForceTimeSlots.apply` from `src/satisfaculty/constraints.py`. -/
def ForceTimeSlots.apply (column_present : Bool) (scheduler : Scheduler) :
    Scheduler × Nat :=
  if !column_present then (scheduler, 0)
  else
    scheduler.courses_df.foldl
      (fun p row =>
        match forceSlotCons p.1.keys row with
        | [] => p
        | cons => ({ p.1 with prob := p.1.prob ++ cons }, p.2 + 1))
      (scheduler, 0)

/-! ### AssignAllCourses (claim C4) -/

theorem assignAll_fold (cs : List String) (s : Scheduler) (c0 : Nat) :
    (cs.foldl
      (fun p course =>
        ({ p.1 with prob := p.1.prob ++ [assignCourseCon p.1.keys course] },
          p.2 + 1))
      (s, c0)).1.prob = s.prob ++ cs.map (assignCourseCon s.keys) ∧
    (cs.foldl
      (fun p course =>
        ({ p.1 with prob := p.1.prob ++ [assignCourseCon p.1.keys course] },
          p.2 + 1))
      (s, c0)).2 = c0 + cs.length := by
  induction cs generalizing s c0 with
  | nil => simp
  | cons c rest ih =>
    simp only [List.foldl_cons, List.map_cons, List.length_cons]
    have h := ih { s with prob := s.prob ++ [assignCourseCon s.keys c] } (c0 + 1)
    refine ⟨?_, ?_⟩
    · rw [h.1]
      simp [List.append_assoc]
    · rw [h.2]
      omega

theorem mem_inner_cartesian {rs ts : List String} {c : String} {k : Key}
    (hk : k ∈ rs.flatMap fun r => ts.map fun t => (c, r, t)) : k.1 = c := by
  simp only [List.mem_flatMap, List.mem_map] at hk
  obtain ⟨r, _, t, _, rfl⟩ := hk
  rfl

theorem filter_keys_course_cartesian (cs rs ts : List String) (c : String)
    (hnd : cs.Nodup) (hc : c ∈ cs) :
    filter_keys (cartesianKeys cs rs ts) (some c) none none none
      = rs.flatMap fun r => ts.map fun t => (c, r, t) := by
  have hfil : filter_keys (cartesianKeys cs rs ts) (some c) none none none
      = (cartesianKeys cs rs ts).filter fun k => decide (k.1 = c) := by
    unfold filter_keys
    congr 1
    funext k
    simp
  rw [hfil]
  clear hfil
  unfold cartesianKeys
  rw [List.filter_flatMap]
  induction cs with
  | nil => cases hc
  | cons c' rest ih =>
    rcases List.mem_cons.mp hc with rfl | hc'
    · have hrest : ∀ x ∈ rest,
          ((rs.flatMap fun r => ts.map fun t => (x, r, t)).filter
            (fun k => decide (k.1 = c))) = [] := by
        intro x hx
        rw [List.filter_eq_nil_iff]
        intro k hk
        have := mem_inner_cartesian hk
        have hxc : x ≠ c := by
          intro h
          exact (List.nodup_cons.mp hnd).1 (h ▸ hx)
        simp [this, hxc]
      have hself : ((rs.flatMap fun r => ts.map fun t => (c, r, t)).filter
          (fun k => decide (k.1 = c)))
          = rs.flatMap fun r => ts.map fun t => (c, r, t) := by
        rw [List.filter_eq_self]
        intro k hk
        simp [mem_inner_cartesian hk]
      simp only [List.flatMap_cons, hself]
      rw [List.flatMap_eq_nil_iff.mpr hrest, List.append_nil]
    · have hne : c' ≠ c := by
        rintro rfl
        exact (List.nodup_cons.mp hnd).1 hc'
      have hhead : ((rs.flatMap fun r => ts.map fun t => (c', r, t)).filter
          (fun k => decide (k.1 = c))) = [] := by
        rw [List.filter_eq_nil_iff]
        intro k hk
        simp [mem_inner_cartesian hk, hne]
      simp only [List.flatMap_cons, hhead, List.nil_append]
      exact ih (List.nodup_cons.mp hnd).2 hc'

/-- Claim C4: over a non-empty course set, `AssignAllCourses.apply` adds
exactly one equality row per course (appended in course order), returns the
number of courses, and — when the key space is the Cartesian product of the
tables, with distinct course identifiers — the row for course `c` sums
`c`'s DecisionKey variables over all rooms and time slots, equal to 1. -/
theorem AssignAllCourses_apply_correct (s : Scheduler)
    (hne : s.courses ≠ []) :
    (AssignAllCourses.apply s).2 = s.courses.length ∧
    (AssignAllCourses.apply s).1.prob
      = s.prob ++ s.courses.map (assignCourseCon s.keys) ∧
    (s.keys = cartesianKeys s.courses s.rooms s.time_slots →
      s.courses.Nodup → ∀ c ∈ s.courses,
        assignCourseCon s.keys c
          = LinCon.eq
              (s.rooms.flatMap fun r =>
                s.time_slots.map fun t => ((1 : Int), Var.dec (c, r, t)))
              [] 1 ("assign_course_" ++ c)) := by
  obtain ⟨h1, h2⟩ := assignAll_fold s.courses s 0
  refine ⟨by rw [AssignAllCourses.apply, h2]; omega,
    by rw [AssignAllCourses.apply, h1], ?_⟩
  intro hkeys hnd c hc
  unfold assignCourseCon
  rw [hkeys, filter_keys_course_cartesian s.courses s.rooms s.time_slots c hnd hc]
  congr 1
  rw [List.map_flatMap]
  congr 1
  funext r
  rw [List.map_map]
  rfl

/-! ### RoomCapacity (claim C3) -/

theorem roomCapacity_fold (ks : List Key) (s : Scheduler) (c0 : Nat) :
    (∀ k', (ks.foldl
      (fun p k =>
        if p.1.enrollments k.1 > p.1.capacities k.2.1 then
          ({ p.1 with
              upBound := fun k' => if k' = k then 0 else p.1.upBound k' },
            p.2 + 1)
        else p)
      (s, c0)).1.upBound k'
        = if k' ∈ ks ∧ s.enrollments k'.1 > s.capacities k'.2.1 then 0
          else s.upBound k') ∧
    (ks.foldl
      (fun p k =>
        if p.1.enrollments k.1 > p.1.capacities k.2.1 then
          ({ p.1 with
              upBound := fun k' => if k' = k then 0 else p.1.upBound k' },
            p.2 + 1)
        else p)
      (s, c0)).2
      = c0 + ks.countP (fun k => decide (s.enrollments k.1 > s.capacities k.2.1)) ∧
    (ks.foldl
      (fun p k =>
        if p.1.enrollments k.1 > p.1.capacities k.2.1 then
          ({ p.1 with
              upBound := fun k' => if k' = k then 0 else p.1.upBound k' },
            p.2 + 1)
        else p)
      (s, c0)).1.prob = s.prob := by
  induction ks generalizing s c0 with
  | nil => simp
  | cons k rest ih =>
    simp only [List.foldl_cons]
    by_cases hcond : s.enrollments k.1 > s.capacities k.2.1
    · rw [if_pos hcond]
      obtain ⟨hub, hcnt, hprob⟩ :=
        ih { s with upBound := fun k' => if k' = k then 0 else s.upBound k' }
          (c0 + 1)
      dsimp only at hcnt
      refine ⟨?_, ?_, hprob⟩
      · intro k'
        rw [hub k']
        by_cases hk' : k' = k
        · subst hk'
          simp [hcond]
        · by_cases hmem : k' ∈ rest <;>
            simp [hk', hmem, List.mem_cons]
      · rw [hcnt, List.countP_cons_of_pos _ _ (by simpa using hcond)]
        omega
    · rw [if_neg hcond]
      obtain ⟨hub, hcnt, hprob⟩ := ih s c0
      refine ⟨?_, ?_, hprob⟩
      · intro k'
        rw [hub k']
        by_cases hk' : k' = k
        · subst hk'
          simp [hcond]
        · simp [hk', List.mem_cons]
      · rw [hcnt, List.countP_cons_of_neg _ _ (by simpa using hcond)]

/-- Claim C3: starting from binary variables (upper bound 1),
`RoomCapacity.apply` leaves the upper bound of a DecisionKey at 0 iff the
course's enrollment strictly exceeds the room's capacity; it adds no linear
row, and returns the number of bounds tightened. -/
theorem RoomCapacity_apply_correct (s : Scheduler)
    (hbin : ∀ k, s.upBound k = 1) :
    (∀ k ∈ s.keys,
      ((RoomCapacity.apply s).1.upBound k = 0 ↔
        s.enrollments k.1 > s.capacities k.2.1)) ∧
    (RoomCapacity.apply s).2
      = s.keys.countP (fun k => decide (s.enrollments k.1 > s.capacities k.2.1)) ∧
    (RoomCapacity.apply s).1.prob = s.prob := by
  obtain ⟨hub, hcnt, hprob⟩ := roomCapacity_fold s.keys s 0
  refine ⟨?_, by rw [RoomCapacity.apply, hcnt]; omega,
    by rw [RoomCapacity.apply, hprob]⟩
  intro k hk
  rw [RoomCapacity.apply, hub k]
  constructor
  · intro h0
    by_contra hcond
    rw [if_neg (by tauto), hbin k] at h0
    exact one_ne_zero h0
  · intro hcond
    rw [if_pos ⟨hk, hcond⟩]

/-! ### ForceRooms / ForceTimeSlots (claim C5) -/

theorem force_fold (f : List Key → CourseRow → List LinCon)
    (rows : List CourseRow) (s : Scheduler) (c0 : Nat) :
    (rows.foldl
      (fun p row =>
        match f p.1.keys row with
        | [] => p
        | cs => ({ p.1 with prob := p.1.prob ++ cs }, p.2 + 1))
      (s, c0)).1.prob = s.prob ++ rows.flatMap (f s.keys) := by
  induction rows generalizing s c0 with
  | nil => simp
  | cons row rest ih =>
    simp only [List.foldl_cons, List.flatMap_cons]
    rcases hf : f s.keys row with _ | ⟨con, l⟩ <;> dsimp only
    · simp only [List.nil_append]
      exact ih s c0
    · have h := ih { s with prob := s.prob ++ con :: l } (c0 + 1)
      dsimp only at h
      rw [h]
      simp [List.append_assoc]

/-- Claim C5 (amended): when a course's forcing annotation names a room
(respectively time slot) that does not exist in the rooms (respectively
time-slots) table, `ForceRooms.apply` (resp. `ForceTimeSlots.apply`)
performs no presence check: the `force_room_{course}`
(resp. `force_time_slot_{course}`) equality row is still added, over the
empty list of matching DecisionKeys — an unsatisfiable `0 = 1` row — and
counted; the data error is not reported. -/
theorem force_apply_missing_identifier (s : Scheduler) :
    (∀ row ∈ s.courses_df, ∀ v : String,
      row.forceRoom = some v → pyStrip v ≠ "" →
      (∀ k ∈ s.keys, k.2.1 ∈ s.rooms) → pyStrip v ∉ s.rooms →
      LinCon.eq [] [] 1 ("force_room_" ++ row.course)
        ∈ (ForceRooms.apply true s).1.prob) ∧
    (∀ row ∈ s.courses_df, ∀ v : String,
      row.forceSlot = some v → pyStrip v ≠ "" →
      (∀ k ∈ s.keys, k.2.2 ∈ s.time_slots) → pyStrip v ∉ s.time_slots →
      LinCon.eq [] [] 1 ("force_time_slot_" ++ row.course)
        ∈ (ForceTimeSlots.apply true s).1.prob) := by
  constructor
  · intro row hrow v hv hvne hkeys habs
    have happ : (ForceRooms.apply true s).1.prob
        = s.prob ++ s.courses_df.flatMap (forceRoomCons s.keys) :=
      force_fold forceRoomCons s.courses_df s 0
    rw [happ]
    have hempty : filter_keys s.keys (some row.course) (some (pyStrip v)) none
        none = [] := by
      unfold filter_keys
      rw [List.filter_eq_nil_iff]
      intro k hk
      have hne : k.2.1 ≠ pyStrip v := fun h => habs (h ▸ hkeys k hk)
      simp [hne]
    have hcons : forceRoomCons s.keys row
        = [LinCon.eq [] [] 1 ("force_room_" ++ row.course)] := by
      unfold forceRoomCons
      rw [hv]
      dsimp only
      rw [if_pos hvne, hempty]
      rfl
    refine List.mem_append_right _ (List.mem_flatMap.mpr ⟨row, hrow, ?_⟩)
    rw [hcons]
    exact List.mem_singleton_self _
  · intro row hrow v hv hvne hkeys habs
    have happ : (ForceTimeSlots.apply true s).1.prob
        = s.prob ++ s.courses_df.flatMap (forceSlotCons s.keys) :=
      force_fold forceSlotCons s.courses_df s 0
    rw [happ]
    have hempty : filter_keys s.keys (some row.course) none (some (pyStrip v))
        none = [] := by
      unfold filter_keys
      rw [List.filter_eq_nil_iff]
      intro k hk
      have hne : k.2.2 ≠ pyStrip v := fun h => habs (h ▸ hkeys k hk)
      simp [hne]
    have hcons : forceSlotCons s.keys row
        = [LinCon.eq [] [] 1 ("force_time_slot_" ++ row.course)] := by
      unfold forceSlotCons
      rw [hv]
      dsimp only
      rw [if_pos hvne, hempty]
      rfl
    refine List.mem_append_right _ (List.mem_flatMap.mpr ⟨row, hrow, ?_⟩)
    rw [hcons]
    exact List.mem_singleton_self _

/-! ## objectives.py : MaximizeLabRootDayPairs (claims C8, C9) -/

/-- Pandas-style `unique()` / Python `set` insertion-order iteration:
first occurrences of each element, in order. -/
def uniqueAux (seen : List String) : List String → List String
  | [] => []
  | x :: xs => if x ∈ seen then uniqueAux seen xs else x :: uniqueAux (x :: seen) xs

/-- First occurrences of each element of a list, in order. -/
def uniqueFirst (l : List String) : List String := uniqueAux [] l

/-- Insertion into a `≤`-sorted list of strings. -/
def insertSorted (x : String) : List String → List String
  | [] => [x]
  | y :: ys => if x ≤ y then x :: y :: ys else y :: insertSorted x ys

/-- Python `tuple(sorted(set(l)))`: deduplicate, then sort. -/
def sortedUnique (l : List String) : List String :=
  (uniqueFirst l).foldr insertSorted []

/-- Python set equality of two day lists. -/
def eqAsSet (a b : List String) : Bool :=
  a.all (fun x => b.contains x) && b.all (fun x => a.contains x)

/-- Python `root.replace(" ", "_")` on the character list. -/
def replaceSpace : List Char → List Char
  | [] => []
  | c :: rest => (if c = ' ' then '_' else c) :: replaceSpace rest

/-- The `MaximizeLabRootDayPairs` objective of
`src/satisfaculty/objectives.py`: lab course types to include, day patterns
to pair on, an optional root restriction, and the lexicographic tolerance. -/
structure MaximizeLabRootDayPairs where
  course_types : List String
  preferred_days : List String
  roots : Option (List String)
  tolerance : Rat

/-- `MaximizeLabRootDayPairs._root_key`: everything before the final `-` of
the course identifier (the identifier itself when it has no `-`). -/
def MaximizeLabRootDayPairs.root_key (course : String) : String :=
  let parts := course.splitOn "-"
  if parts.length ≤ 1 then course else String.intercalate "-" parts.dropLast

/-- The memoization key built in `MaximizeLabRootDayPairs.evaluate`:
`("lab_root_day_pairs", tuple(sorted(self.course_types)),
tuple(sorted(self.preferred_days)))` — the `roots` field is not part of
the key. -/
def MaximizeLabRootDayPairs.cache_key (o : MaximizeLabRootDayPairs) :
    String × List String × List String :=
  ("lab_root_day_pairs", sortedUnique o.course_types,
    sortedUnique o.preferred_days)

/-- `dict.setdefault(root, []).append(course)`: insertion-ordered grouping. -/
def addToGroups (groups : List (String × List String)) (root c : String) :
    List (String × List String) :=
  match groups with
  | [] => [(root, [c])]
  | (r, cs) :: rest =>
    if r = root then (r, cs ++ [c]) :: rest
    else (r, cs) :: addToGroups rest root c

/-- The `root_to_courses` grouping of `MaximizeLabRootDayPairs.evaluate`:
courses whose type is one of `course_types` (skipping courses with no type
entry, as `dict.get` returns `None` there) and, when a roots restriction is
given, whose root belongs to it, grouped by root. -/
def rootGroups (o : MaximizeLabRootDayPairs) (s : Scheduler) :
    List (String × List String) :=
  s.courses.foldl
    (fun groups course =>
      match s.course_types.lookup course with
      | some t =>
        if t ∈ o.course_types then
          match o.roots with
          | some rs =>
            if MaximizeLabRootDayPairs.root_key course ∈ rs then
              addToGroups groups (MaximizeLabRootDayPairs.root_key course) course
            else groups
          | none =>
            addToGroups groups (MaximizeLabRootDayPairs.root_key course) course
        else groups
      | none => groups)
    []

/-- The PuLP name `f"pair_{safe_root}_{day}"` of a pairing variable. -/
def pairVarName (root day : String) : String :=
  "pair_" ++ String.mk (replaceSpace root.data) ++ "_" ++ day

/-- `count_on_day` from `MaximizeLabRootDayPairs.evaluate`: the sum of the
decision variables of the sibling courses whose slot's day set equals the
day pattern's expansion (Python set equality). -/
def count_on_day (s : Scheduler) (cs : List String) (day : String) : LinExpr :=
  (s.keys.filter fun k =>
    cs.contains k.1 && eqAsSet (s.slot_days k.2.2) (expand_days_any day.data)).map
    fun k => ((1 : Int), Var.dec k)

/-- The pairing-variable construction of `MaximizeLabRootDayPairs.evaluate`:
for each root family with at least two members and each preferred day
pattern, one auxiliary binary variable `y` plus the linking row
`2*y <= count_on_day` named `pair_root_{root}_{day}`. Returns the pairing
variables and the rows to add. -/
def buildPairs (o : MaximizeLabRootDayPairs) (s : Scheduler)
    (groups : List (String × List String)) : List Var × List LinCon :=
  groups.foldl
    (fun acc g =>
      if g.2.length < 2 then acc
      else
        (uniqueFirst o.preferred_days).foldl
          (fun acc2 day =>
            let y := Var.aux (pairVarName g.1 day)
            (acc2.1 ++ [y],
              acc2.2 ++ [LinCon.le [((2 : Int), y)] (count_on_day s g.2 day) 0
                ("pair_root_" ++ g.1 ++ "_" ++ day)]))
          acc)
    ([], [])

/-- First-match lookup in the `_objective_cache` association list. -/
def cacheLookup
    (cache : List ((String × List String × List String) × LinExpr))
    (k : String × List String × List String) : Option LinExpr :=
  match cache with
  | [] => none
  | (k', e) :: rest => if k' = k then some e else cacheLookup rest k

/-- `MaximizeLabRootDayPairs.evaluate` from
`src/satisfaculty/objectives.py`: on a cache hit for the memoization key,
return the cached expression and leave the scheduler untouched; otherwise
build the pairing variables and linking rows, add the rows to the problem,
cache the expression under the key, and return it. -/
def MaximizeLabRootDayPairs.evaluate (o : MaximizeLabRootDayPairs)
    (scheduler : Scheduler) : LinExpr × Scheduler :=
  match cacheLookup scheduler.objective_cache o.cache_key with
  | some e => (e, scheduler)
  | none =>
    let pcs := buildPairs o scheduler (rootGroups o scheduler)
    let expr : LinExpr := pcs.1.map fun y => ((1 : Int), y)
    (expr,
      { scheduler with
          prob := scheduler.prob ++ pcs.2,
          objective_cache :=
            scheduler.objective_cache ++ [(o.cache_key, expr)] })

theorem cacheLookup_append_self
    (cache : List ((String × List String × List String) × LinExpr))
    (k : String × List String × List String) (e : LinExpr)
    (h : cacheLookup cache k = none) :
    cacheLookup (cache ++ [(k, e)]) k = some e := by
  induction cache with
  | nil => simp [cacheLookup]
  | cons p rest ih =>
    obtain ⟨k1, e1⟩ := p
    simp only [cacheLookup, List.cons_append] at h ⊢
    by_cases hp : k1 = k
    · rw [if_pos hp] at h
      cases h
    · rw [if_neg hp] at h ⊢
      exact ih h

/-- Any later `evaluate` whose memoization key matches the key of an
already-evaluated objective is a pure cache hit: it returns the cached
expression and leaves the scheduler state (problem rows, cache) unchanged. -/
theorem evaluate_key_hit (o o2 : MaximizeLabRootDayPairs) (s : Scheduler)
    (hkey : o2.cache_key = o.cache_key) :
    MaximizeLabRootDayPairs.evaluate o2
        ((MaximizeLabRootDayPairs.evaluate o s).2)
      = MaximizeLabRootDayPairs.evaluate o s := by
  rcases h : cacheLookup s.objective_cache o.cache_key with _ | e
  · have h1 : MaximizeLabRootDayPairs.evaluate o s =
        ((buildPairs o s (rootGroups o s)).1.map (fun y => ((1 : Int), y)),
          { s with
              prob := s.prob ++ (buildPairs o s (rootGroups o s)).2,
              objective_cache := s.objective_cache ++
                [(o.cache_key,
                  (buildPairs o s (rootGroups o s)).1.map
                    fun y => ((1 : Int), y))] }) := by
      rw [MaximizeLabRootDayPairs.evaluate, h]
    rw [h1]
    dsimp only
    rw [MaximizeLabRootDayPairs.evaluate, hkey]
    dsimp only
    rw [cacheLookup_append_self _ _ _ h]
  · have h1 : MaximizeLabRootDayPairs.evaluate o s = (e, s) := by
      rw [MaximizeLabRootDayPairs.evaluate, h]
    rw [h1]
    dsimp only
    rw [MaximizeLabRootDayPairs.evaluate, hkey, h]

/-- Claim C8: during one scheduler's lifetime, re-evaluating
`MaximizeLabRootDayPairs` with the same `(course_types, preferred_days)`
memoization key returns the identical memoized expression and leaves the
model unchanged — no new auxiliary pairing variables and no new
`2*y <= count_on_day` linking rows are added. -/
theorem MaximizeLabRootDayPairs_evaluate_idempotent
    (o : MaximizeLabRootDayPairs) (s : Scheduler) :
    MaximizeLabRootDayPairs.evaluate o
        ((MaximizeLabRootDayPairs.evaluate o s).2)
      = MaximizeLabRootDayPairs.evaluate o s :=
  evaluate_key_hit o o s rfl

/-- Claim C9: the memoization key omits the `roots` restriction, so after
one instance with roots `R1` has been evaluated, a second instance with
equal `course_types` and `preferred_days` but different roots `R2` is a
cache hit: it returns the first instance's cached expression unchanged, and
`R2` has no effect on the returned expression. -/
theorem MaximizeLabRootDayPairs_cache_ignores_roots
    (o1 o2 : MaximizeLabRootDayPairs) (s : Scheduler)
    (hct : o2.course_types = o1.course_types)
    (hpd : o2.preferred_days = o1.preferred_days)
    (hroots : o2.roots ≠ o1.roots) :
    MaximizeLabRootDayPairs.evaluate o2
        ((MaximizeLabRootDayPairs.evaluate o1 s).2)
      = MaximizeLabRootDayPairs.evaluate o1 s := by
  have hkey : o2.cache_key = o1.cache_key := by
    unfold MaximizeLabRootDayPairs.cache_key
    rw [hct, hpd]
  exact evaluate_key_hit o1 o2 s hkey

/-! ### Concrete scheduler states used to exercise the theorems -/

/-- A two-course, one-room, one-slot scheduler; course `C1` (enrollment
100) overflows room `R1` (capacity 50), course `C2` (enrollment 10) fits. -/
def demoSched : Scheduler where
  courses := ["C1", "C2"]
  rooms := ["R1"]
  time_slots := ["T1"]
  keys := cartesianKeys ["C1", "C2"] ["R1"] ["T1"]
  courses_df := [⟨"C1", none, none⟩, ⟨"C2", none, none⟩]
  enrollments := fun c => if c = "C1" then 100 else 10
  capacities := fun _ => 50
  course_types := []
  slot_days := fun _ => []
  upBound := fun _ => 1
  prob := []
  objective_cache := []

/-- A scheduler whose single course is annotated with a forced room `R9`
and forced time slot `T9`, neither of which exists in the tables. -/
def forceSched : Scheduler where
  courses := ["C1"]
  rooms := ["R1"]
  time_slots := ["T1"]
  keys := [("C1", "R1", "T1")]
  courses_df := [⟨"C1", some "R9", some "T9"⟩]
  enrollments := fun _ => 10
  capacities := fun _ => 50
  course_types := []
  slot_days := fun _ => []
  upBound := fun _ => 1
  prob := []
  objective_cache := []

/-- Witness for `AssignAllCourses_apply_correct` at `demoSched`. -/
theorem AssignAllCourses_apply_correct_witness :
    (AssignAllCourses.apply demoSched).2 = 2 ∧
    assignCourseCon demoSched.keys "C1"
      = LinCon.eq [((1 : Int), Var.dec ("C1", "R1", "T1"))] [] 1
          "assign_course_C1" := by
  have h := AssignAllCourses_apply_correct demoSched (by decide)
  refine ⟨h.1, ?_⟩
  rw [h.2.2 rfl (by decide) "C1" (by decide)]
  decide

/-- Witness for `RoomCapacity_apply_correct` at `demoSched`: `C1`
overflows `R1`, so its variable's upper bound ends at 0; `C2` fits, so its
bound does not; one bound is tightened and no row is added. -/
theorem RoomCapacity_apply_correct_witness :
    (RoomCapacity.apply demoSched).1.upBound ("C1", "R1", "T1") = 0 ∧
    ¬ (RoomCapacity.apply demoSched).1.upBound ("C2", "R1", "T1") = 0 ∧
    (RoomCapacity.apply demoSched).2 = 1 ∧
    (RoomCapacity.apply demoSched).1.prob = [] := by
  have h := RoomCapacity_apply_correct demoSched (fun _ => rfl)
  refine ⟨(h.1 ("C1", "R1", "T1") (by decide)).mpr (by decide),
    fun h0 => absurd ((h.1 ("C2", "R1", "T1") (by decide)).mp h0) (by decide),
    ?_, h.2.2⟩
  rw [h.2.1]
  decide

/-- Claim C5, counterexample: at `forceSched` the forced identifiers `R9`
and `T9` are absent from the tables, yet both applies add one equality row
each (over an empty variable list, i.e. `0 = 1`) and report a count of 1 —
not the claimed guarded no-op. -/
theorem force_missing_identifier_counterexample :
    "R9" ∉ forceSched.rooms ∧ "T9" ∉ forceSched.time_slots ∧
    (ForceRooms.apply true forceSched).1.prob
      = [LinCon.eq [] [] 1 "force_room_C1"] ∧
    (ForceRooms.apply true forceSched).2 = 1 ∧
    (ForceTimeSlots.apply true forceSched).1.prob
      = [LinCon.eq [] [] 1 "force_time_slot_C1"] ∧
    (ForceTimeSlots.apply true forceSched).2 = 1 := by
  decide

/-- The `MaximizeLabRootDayPairs` objective restricted to root `ASEN 3501`. -/
def labPairsRestricted : MaximizeLabRootDayPairs :=
  ⟨["Lab110x1"], ["MW"], some ["ASEN 3501"], 0⟩

/-- The same objective with no root restriction. -/
def labPairsUnrestricted : MaximizeLabRootDayPairs :=
  ⟨["Lab110x1"], ["MW"], none, 0⟩

/-- Witness for `MaximizeLabRootDayPairs_cache_ignores_roots`: at
`demoSched`, evaluating the restricted instance and then the unrestricted
one (different roots, same key) is a cache hit. -/
theorem MaximizeLabRootDayPairs_cache_ignores_roots_witness :
    MaximizeLabRootDayPairs.evaluate labPairsUnrestricted
        ((MaximizeLabRootDayPairs.evaluate labPairsRestricted demoSched).2)
      = MaximizeLabRootDayPairs.evaluate labPairsRestricted demoSched :=
  MaximizeLabRootDayPairs_cache_ignores_roots labPairsRestricted
    labPairsUnrestricted demoSched rfl rfl (by decide)

/-- Witness for `force_apply_missing_identifier` at `forceSched`. -/
theorem force_apply_missing_identifier_witness :
    LinCon.eq [] [] 1 "force_room_C1"
      ∈ (ForceRooms.apply true forceSched).1.prob ∧
    LinCon.eq [] [] 1 "force_time_slot_C1"
      ∈ (ForceTimeSlots.apply true forceSched).1.prob :=
  ⟨(force_apply_missing_identifier forceSched).1 ⟨"C1", some "R9", some "T9"⟩
      (by decide) "R9" rfl (by decide) (by decide) (by decide),
   (force_apply_missing_identifier forceSched).2 ⟨"C1", some "R9", some "T9"⟩
      (by decide) "T9" rfl (by decide) (by decide) (by decide)⟩

/-! ## src/scheduler.py : the standalone ILP scheduler -/

namespace SrcSched

/-- Pandas `Series.duplicated()` restricted to the duplicated entries
themselves: the elements that already occurred earlier in the list, in
order (`seen` carries the elements already scanned). -/
def dupAux (seen : List String) : List String → List String
  | [] => []
  | x :: xs =>
    if x ∈ seen then x :: dupAux (x :: seen) xs else dupAux (x :: seen) xs

/-- One row of the rooms table. -/
structure RoomRow where
  room : String
  capacity : Int
deriving DecidableEq

/-- `InstructorScheduler.load_rooms` from `src/src/scheduler.py`: read the
table, and if the `Room` column has duplicates, raise
`ValueError(f"Duplicate rooms found: {list(duplicates)}")` — caught by the
surrounding handler, which reports the error and returns `None` (modelled
as `Except.error` carrying the reported duplicate identifiers,
`rooms[rooms.duplicated()].unique()`); otherwise return the table. -/
def load_rooms (rooms_df : List RoomRow) : Except (List String) (List RoomRow) :=
  let rooms := rooms_df.map RoomRow.room
  if rooms.length ≠ (Satisfaculty.uniqueFirst rooms).length then
    Except.error (Satisfaculty.uniqueFirst (dupAux [] rooms))
  else Except.ok rooms_df

theorem mem_uniqueAux (x : String) (l : List String) :
    ∀ seen, (x ∈ Satisfaculty.uniqueAux seen l ↔ x ∈ l ∧ x ∉ seen) := by
  induction l with
  | nil => intro seen; simp [Satisfaculty.uniqueAux]
  | cons y ys ih =>
    intro seen
    rw [Satisfaculty.uniqueAux]
    by_cases hy : y ∈ seen
    · rw [if_pos hy, ih seen]
      constructor
      · rintro ⟨h1, h2⟩
        exact ⟨List.mem_cons_of_mem _ h1, h2⟩
      · rintro ⟨h1, h2⟩
        rcases List.mem_cons.mp h1 with rfl | h1
        · exact absurd hy h2
        · exact ⟨h1, h2⟩
    · rw [if_neg hy]
      constructor
      · intro h
        rcases List.mem_cons.mp h with rfl | h
        · exact ⟨List.mem_cons_self _ _, hy⟩
        · obtain ⟨h1, h2⟩ := (ih (y :: seen)).mp h
          exact ⟨List.mem_cons_of_mem _ h1,
            fun hx => h2 (List.mem_cons_of_mem _ hx)⟩
      · rintro ⟨h1, h2⟩
        rcases List.mem_cons.mp h1 with rfl | h1
        · exact List.mem_cons_self _ _
        · by_cases hxy : x = y
          · subst hxy
            exact List.mem_cons_self _ _
          · exact List.mem_cons_of_mem _
              ((ih (y :: seen)).mpr ⟨h1, by simp [hxy, h2]⟩)

theorem length_uniqueAux_le (l : List String) :
    ∀ seen, (Satisfaculty.uniqueAux seen l).length ≤ l.length := by
  induction l with
  | nil => intro seen; simp [Satisfaculty.uniqueAux]
  | cons y ys ih =>
    intro seen
    rw [Satisfaculty.uniqueAux]
    by_cases hy : y ∈ seen
    · rw [if_pos hy]
      exact le_trans (ih seen) (by simp)
    · rw [if_neg hy]
      simpa using ih (y :: seen)

theorem length_uniqueAux_eq_iff (l : List String) :
    ∀ seen, ((Satisfaculty.uniqueAux seen l).length = l.length ↔
      (l.Nodup ∧ ∀ x ∈ l, x ∉ seen)) := by
  induction l with
  | nil => intro seen; simp [Satisfaculty.uniqueAux]
  | cons y ys ih =>
    intro seen
    rw [Satisfaculty.uniqueAux]
    by_cases hy : y ∈ seen
    · rw [if_pos hy]
      constructor
      · intro h
        have := length_uniqueAux_le ys seen
        simp only [List.length_cons] at h
        omega
      · rintro ⟨-, h2⟩
        exact absurd hy (h2 y (List.mem_cons_self _ _))
    · rw [if_neg hy]
      simp only [List.length_cons, Nat.add_right_cancel_iff, ih (y :: seen),
        List.nodup_cons, List.mem_cons]
      constructor
      · rintro ⟨hnd, hall⟩
        refine ⟨⟨fun hmem => (hall y hmem) (Or.inl rfl), hnd⟩, ?_⟩
        rintro x (rfl | hx)
        · exact hy
        · exact fun hs => (hall x hx) (Or.inr hs)
      · rintro ⟨⟨hyys, hnd⟩, hall⟩
        refine ⟨hnd, ?_⟩
        rintro x hx (rfl | hs)
        · exact hyys hx
        · exact (hall x (Or.inr hx)) hs

theorem mem_dupAux (x : String) (l : List String) :
    ∀ seen, (x ∈ dupAux seen l ↔ (x ∈ seen ∧ x ∈ l) ∨ 2 ≤ l.count x) := by
  induction l with
  | nil => intro seen; simp [dupAux]
  | cons y ys ih =>
    intro seen
    rw [dupAux]
    by_cases hy : y ∈ seen
    · rw [if_pos hy]
      by_cases hxy : x = y
      · subst hxy
        exact iff_of_true (List.mem_cons_self _ _)
          (Or.inl ⟨hy, List.mem_cons_self _ _⟩)
      · rw [List.mem_cons]
        simp only [hxy, false_or]
        rw [ih (y :: seen), List.count_cons_of_ne hxy]
        constructor
        · rintro (⟨h1, h2⟩ | h2)
          · exact Or.inl ⟨(List.mem_cons.mp h1).resolve_left hxy,
              List.mem_cons_of_mem _ h2⟩
          · exact Or.inr h2
        · rintro (⟨h1, h2⟩ | h2)
          · exact Or.inl ⟨List.mem_cons_of_mem _ h1,
              (List.mem_cons.mp h2).resolve_left hxy⟩
          · exact Or.inr h2
    · rw [if_neg hy, ih (y :: seen)]
      by_cases hxy : x = y
      · subst hxy
        rw [List.count_cons_self]
        constructor
        · rintro (⟨-, h2⟩ | h2)
          · have : 0 < ys.count x := List.count_pos_iff.mpr h2
            omega
          · omega
        · rintro (⟨h1, -⟩ | h2)
          · exact absurd h1 hy
          · refine Or.inl ⟨List.mem_cons_self _ _, ?_⟩
            have : 0 < ys.count x := by omega
            exact List.count_pos_iff.mp this
      · rw [List.count_cons_of_ne hxy]
        constructor
        · rintro (⟨h1, h2⟩ | h2)
          · exact Or.inl ⟨(List.mem_cons.mp h1).resolve_left hxy,
              List.mem_cons_of_mem _ h2⟩
          · exact Or.inr h2
        · rintro (⟨h1, h2⟩ | h2)
          · exact Or.inl ⟨List.mem_cons_of_mem _ h1,
              (List.mem_cons.mp h2).resolve_left hxy⟩
          · exact Or.inr h2

/-- Claim C6: `load_rooms` detects a duplicated `Room` identifier at load
time and returns no table — an error whose report lists exactly the
identifiers occurring at least twice — and accepts (returning the table)
exactly the duplicate-free tables. -/
theorem load_rooms_duplicate_detection (rooms_df : List RoomRow) :
    ((rooms_df.map RoomRow.room).Nodup → load_rooms rooms_df = Except.ok rooms_df) ∧
    (¬ (rooms_df.map RoomRow.room).Nodup →
      ∃ ds, load_rooms rooms_df = Except.error ds ∧ ds ≠ [] ∧
        ∀ x, x ∈ ds ↔ 2 ≤ (rooms_df.map RoomRow.room).count x) := by
  have hiff := length_uniqueAux_eq_iff (rooms_df.map RoomRow.room) []
  simp only [List.not_mem_nil, not_false_iff, implies_true, and_true] at hiff
  constructor
  · intro hnd
    rw [load_rooms]
    rw [if_neg]
    intro hne
    exact hne ((hiff.mpr hnd).symm)
  · intro hnd
    refine ⟨Satisfaculty.uniqueFirst
      (dupAux [] (rooms_df.map RoomRow.room)), ?_, ?_, ?_⟩
    · rw [load_rooms]
      rw [if_pos]
      intro heq
      exact hnd (hiff.mp heq.symm)
    · obtain ⟨a, ha⟩ := not_forall.mp
        (fun hall => hnd (List.nodup_iff_count_le_one.mpr hall))
      have ha2 : 2 ≤ (rooms_df.map RoomRow.room).count a := by omega
      have hmem : a ∈ dupAux [] (rooms_df.map RoomRow.room) :=
        (mem_dupAux a _ []).mpr (Or.inr ha2)
      exact List.ne_nil_of_mem
        ((mem_uniqueAux a _ []).mpr ⟨hmem, List.not_mem_nil a⟩)
    · intro x
      rw [Satisfaculty.uniqueFirst, mem_uniqueAux x _ [], mem_dupAux x _ []]
      simp [List.not_mem_nil]

/-- Witness for `load_rooms_duplicate_detection`: a table with `R1` twice
is rejected with `R1` reported; a duplicate-free table is accepted. -/
theorem load_rooms_duplicate_detection_witness :
    load_rooms [⟨"R1", 10⟩, ⟨"R2", 20⟩] = Except.ok [⟨"R1", 10⟩, ⟨"R2", 20⟩] ∧
    ∃ ds, load_rooms [⟨"R1", 10⟩, ⟨"R1", 20⟩] = Except.error ds ∧ ds ≠ [] ∧
      ∀ x, x ∈ ds ↔ 2 ≤ (([⟨"R1", 10⟩, ⟨"R1", 20⟩] : List RoomRow).map
        RoomRow.room).count x :=
  ⟨(load_rooms_duplicate_detection [⟨"R1", 10⟩, ⟨"R2", 20⟩]).1 (by decide),
   (load_rooms_duplicate_detection [⟨"R1", 10⟩, ⟨"R1", 20⟩]).2 (by decide)⟩

/-! ### optimize_schedule (claim C7) -/

/-- A decision index `(course, room, time_slot)` of the standalone
scheduler (time slots are the integers of `range(n)`). -/
abbrev Key2 := String × String × Nat

/-- One linear row handed to the solver: equality (`== rhs`) or inequality
(`<= rhs`) over coefficient-index terms. -/
structure SrcCon where
  isEq : Bool
  terms : List (Int × Key2)
  rhs : Int

/-- The value of a linear expression under a variable assignment. -/
def evalLin (x : Key2 → Int) (terms : List (Int × Key2)) : Int :=
  (terms.map fun t => t.1 * x t.2).sum

/-- Whether an assignment satisfies one row. -/
def satisfiesCon (x : Key2 → Int) (con : SrcCon) : Bool :=
  if con.isEq then decide (evalLin x con.terms = con.rhs)
  else decide (evalLin x con.terms ≤ con.rhs)

/-- The extracted input parameters of `optimize_schedule`: course/room/slot
tables, the instructor list, the enrollment/capacity dictionaries, the
instructor-course indicator matrix `a`, and the instructor lookup used when
building schedule rows. -/
structure Inputs where
  courses : List String
  rooms : List String
  time_slots : List Nat
  instructors : List String
  enrollments : String → Int
  capacities : String → Int
  a : String → String → Int
  instructorOf : String → String

/-- The constraint rows `optimize_schedule` adds to the problem, in order:
each course taught once (equality), each instructor at most one course per
slot, each room at most one course per slot, and per-room-per-slot
enrollment at most capacity. -/
def buildProblem (inp : Inputs) : List SrcCon :=
  (inp.courses.map fun course =>
    ⟨true,
      inp.rooms.flatMap fun room =>
        inp.time_slots.map fun t => ((1 : Int), (course, room, t)),
      1⟩)
  ++ (inp.instructors.flatMap fun instructor =>
    inp.time_slots.map fun t =>
      ⟨false,
        inp.courses.flatMap fun course =>
          inp.rooms.map fun room =>
            (inp.a instructor course, (course, room, t)),
        1⟩)
  ++ (inp.rooms.flatMap fun room =>
    inp.time_slots.map fun t =>
      ⟨false, inp.courses.map fun course => ((1 : Int), (course, room, t)), 1⟩)
  ++ (inp.rooms.flatMap fun room =>
    inp.time_slots.map fun t =>
      ⟨false,
        inp.courses.map fun course =>
          (inp.enrollments course, (course, room, t)),
        inp.capacities room⟩)

/-- One row of the produced schedule dataframe. -/
structure SrcRow where
  course : String
  room : String
  slot : Nat
  instructor : String
deriving DecidableEq

/-- The `schedule_data` triple loop of `optimize_schedule`: one row per
index whose variable solved to 1. -/
def schedule_rows (inp : Inputs) (x : Key2 → Int) : List SrcRow :=
  inp.courses.flatMap fun course =>
    inp.rooms.flatMap fun room =>
      inp.time_slots.filterMap fun t =>
        if x (course, room, t) = 1 then
          some ⟨course, room, t, inp.instructorOf course⟩
        else none

/-- `InstructorScheduler.optimize_schedule` after the solver call: if the
solver status is not `Optimal`, print and return no schedule; otherwise
build and return the schedule dataframe from the solved assignment. -/
def optimize_schedule (inp : Inputs) (status_optimal : Bool)
    (x : Key2 → Int) : Option (List SrcRow) :=
  if status_optimal then some (schedule_rows inp x) else none

theorem length_filterMap_ite {α β : Type} (g : α → β) (p : α → Bool)
    (l : List α) :
    (l.filterMap fun t => if p t then some (g t) else none).length
      = l.countP p := by
  induction l with
  | nil => simp
  | cons t rest ih =>
    by_cases hp : p t
    · rw [List.filterMap_cons, if_pos hp, List.countP_cons_of_pos _ _ hp]
      simpa using ih
    · rw [List.filterMap_cons, if_neg hp,
        List.countP_cons_of_neg _ _ (by simpa using hp)]
      exact ih

theorem filterMap_length_eq_sum (slots : List Nat) (f : Nat → Int)
    (g : Nat → SrcRow) (hbin : ∀ t ∈ slots, f t = 0 ∨ f t = 1) :
    ((slots.filterMap fun t => if f t = 1 then some (g t) else none).length : Int)
      = (slots.map fun t => f t).sum := by
  induction slots with
  | nil => simp
  | cons t ts ih =>
    have ht := hbin t (List.mem_cons_self _ _)
    have hts := ih fun u hu => hbin u (List.mem_cons_of_mem _ hu)
    rcases ht with h0 | h1
    · rw [List.filterMap_cons, if_neg (by rw [h0]; norm_num)]
      dsimp only
      rw [List.map_cons, List.sum_cons, h0, hts]
      ring
    · rw [List.filterMap_cons, if_pos h1]
      dsimp only
      rw [List.map_cons, List.sum_cons, h1, List.length_cons]
      push_cast
      rw [hts]
      ring

theorem course_rows_length (rooms : List String) (slots : List Nat)
    (x : Key2 → Int) (c instr : String) (hbin : ∀ k, x k = 0 ∨ x k = 1) :
    ((rooms.flatMap fun room =>
        slots.filterMap fun t =>
          if x (c, room, t) = 1 then some (SrcRow.mk c room t instr)
          else none).length : Int)
      = evalLin x (rooms.flatMap fun room =>
          slots.map fun t => ((1 : Int), (c, room, t))) := by
  induction rooms with
  | nil => simp [evalLin]
  | cons room rest ih =>
    simp only [List.flatMap_cons, List.length_append, evalLin,
      List.map_append, List.sum_append] at ih ⊢
    push_cast
    rw [ih]
    have hinner : ((slots.filterMap fun t =>
        if x (c, room, t) = 1 then some (SrcRow.mk c room t instr)
        else none).length : Int)
        = (slots.map fun t => x (c, room, t)).sum :=
      filterMap_length_eq_sum slots (fun t => x (c, room, t)) _
        (fun t _ => hbin (c, room, t))
    rw [hinner]
    congr 1
    rw [List.map_map]
    have hfun : ((fun p : Int × Key2 => p.1 * x p.2)
        ∘ fun t : Nat => ((1 : Int), (c, room, t)))
        = fun t : Nat => x (c, room, t) := by
      funext t
      simp
    rw [hfun]

theorem mem_inner_rows {rooms : List String} {slots : List Nat}
    {x : Key2 → Int} {c instr : String} {row : SrcRow}
    (h : row ∈ rooms.flatMap fun room =>
      slots.filterMap fun t =>
        if x (c, room, t) = 1 then some (SrcRow.mk c room t instr)
        else none) : row.course = c := by
  simp only [List.mem_flatMap, List.mem_filterMap] at h
  obtain ⟨room, -, t, -, ht⟩ := h
  split at ht
  · rw [← Option.some.inj ht]
  · cases ht

theorem filter_rows_flatMap (cs : List String) (g : String → List SrcRow)
    (hcourse : ∀ c' ∈ cs, ∀ row ∈ g c', row.course = c')
    (c : String) (hnd : cs.Nodup) (hc : c ∈ cs) :
    (cs.flatMap g).filter (fun row => decide (row.course = c)) = g c := by
  rw [List.filter_flatMap]
  induction cs with
  | nil => cases hc
  | cons c' rest ih =>
    rcases List.mem_cons.mp hc with rfl | hc'
    · have hrest : ∀ y ∈ rest,
          (g y).filter (fun row => decide (row.course = c)) = [] := by
        intro y hy
        rw [List.filter_eq_nil_iff]
        intro row hrow
        have hyc : y ≠ c := by
          intro h
          exact (List.nodup_cons.mp hnd).1 (h ▸ hy)
        simp [hcourse y (List.mem_cons_of_mem _ hy) row hrow, hyc]
      have hself : (g c).filter (fun row => decide (row.course = c)) = g c := by
        rw [List.filter_eq_self]
        intro row hrow
        simp [hcourse c (List.mem_cons_self _ _) row hrow]
      simp only [List.flatMap_cons, hself]
      rw [List.flatMap_eq_nil_iff.mpr hrest, List.append_nil]
    · have hne : c' ≠ c := by
        rintro rfl
        exact (List.nodup_cons.mp hnd).1 hc'
      have hhead : (g c').filter (fun row => decide (row.course = c)) = [] := by
        rw [List.filter_eq_nil_iff]
        intro row hrow
        simp [hcourse c' (List.mem_cons_self _ _) row hrow, hne]
      simp only [List.flatMap_cons, hhead, List.nil_append]
      exact ih (fun y hy => hcourse y (List.mem_cons_of_mem _ hy))
        (List.nodup_cons.mp hnd).2 hc'

/-- Claim C7: whenever `optimize_schedule` returns a schedule (the solver
reported `Optimal`, the solved assignment is binary and satisfies the rows
the code handed the solver), every course appears in exactly one row of
that schedule. -/
theorem optimize_schedule_course_once (inp : Inputs) (status_optimal : Bool)
    (x : Key2 → Int) (sched : List SrcRow)
    (hnodup : inp.courses.Nodup)
    (hbin : ∀ k, x k = 0 ∨ x k = 1)
    (hsat : ∀ con ∈ buildProblem inp, satisfiesCon x con = true)
    (hret : optimize_schedule inp status_optimal x = some sched) :
    ∀ c ∈ inp.courses,
      (sched.filter fun row => decide (row.course = c)).length = 1 := by
  intro c hc
  rw [optimize_schedule] at hret
  split at hret
  · have hs := Option.some.inj hret
    rw [← hs]
    have hfil := filter_rows_flatMap inp.courses
      (fun course => inp.rooms.flatMap fun room =>
        inp.time_slots.filterMap fun t =>
          if x (course, room, t) = 1 then
            some (SrcRow.mk course room t (inp.instructorOf course))
          else none)
      (fun c' _ row hrow => mem_inner_rows hrow) c hnodup hc
    rw [schedule_rows, hfil]
    have hcon : (⟨true,
        inp.rooms.flatMap fun room =>
          inp.time_slots.map fun t => ((1 : Int), (c, room, t)),
        1⟩ : SrcCon) ∈ buildProblem inp := by
      unfold buildProblem
      exact List.mem_append_left _ (List.mem_append_left _
        (List.mem_append_left _ (List.mem_map.mpr ⟨c, hc, rfl⟩)))
    have hval := hsat _ hcon
    rw [satisfiesCon] at hval
    have heval : evalLin x (inp.rooms.flatMap fun room =>
        inp.time_slots.map fun t => ((1 : Int), (c, room, t))) = 1 := by
      simpa using hval
    have hlen := course_rows_length inp.rooms inp.time_slots x c
      (inp.instructorOf c) hbin
    rw [heval] at hlen
    exact_mod_cast hlen
  · cases hret

/-- A feasible one-course input with two time slots and a binary solved
assignment placing `C1` in `R1` at slot 0. -/
def wInp : Inputs where
  courses := ["C1"]
  rooms := ["R1"]
  time_slots := [0, 1]
  instructors := ["Smith"]
  enrollments := fun _ => 10
  capacities := fun _ => 50
  a := fun _ _ => 1
  instructorOf := fun _ => "Smith"

/-- The solved assignment for `wInp`. -/
def wx : Key2 → Int := fun k => if k = ("C1", "R1", 0) then 1 else 0

/-- Witness for `optimize_schedule_course_once` at `wInp` and `wx`. -/
theorem optimize_schedule_course_once_witness :
    ((schedule_rows wInp wx).filter fun row =>
      decide (row.course = "C1")).length = 1 :=
  optimize_schedule_course_once wInp true wx (schedule_rows wInp wx)
    (by decide)
    (fun k => by unfold wx; split <;> [exact Or.inr rfl; exact Or.inl rfl])
    (by decide) rfl "C1" (by decide)

end SrcSched

/-! ## The lexicographic optimizer (claim C1)

`lexicographic_optimize` lives in `satisfaculty/scheduler.py`, which is not
among the sources at hand; the definitions below are modelled from spec
section 4.5 over an abstract finite feasible set (the external solver is
modelled as exact optimization over that set). -/

/-- An objective's optimization direction. -/
inductive Sense where
  | minimize
  | maximize
deriving DecidableEq

/-- Modelled from the spec: an Objective of section 4.4 — a value function
over feasible assignments (its linear expression evaluated at a feasible
point), a sense, and a freeze tolerance. -/
structure Objective (σ : Type) where
  f : σ → Rat
  sense : Sense
  tolerance : Rat

/-- The value the solver minimizes for an objective: its expression under
`minimize`, the negated expression under `maximize`. -/
def objKey {σ : Type} (o : Objective σ) (s : σ) : Rat :=
  match o.sense with
  | Sense.minimize => o.f s
  | Sense.maximize => -(o.f s)

/-- Modelled from the spec: one solver call (section 6) — an exact optimum
of the objective over the finite feasible set, or `none` when infeasible. -/
def solveOne {σ : Type} (o : Objective σ) (S : List σ) : Option σ :=
  S.argmin (objKey o)

/-- Modelled from the spec: the freeze constraint of section 4.5 step 4 —
with tolerance 0 a hard equality on the objective's value, otherwise a
range permitting up to `tolerance * |v|` degradation in the optimizing
direction. -/
def freezeOK {σ : Type} (o : Objective σ) (v : Rat) (s : σ) : Bool :=
  if o.tolerance = 0 then decide (o.f s = v)
  else
    match o.sense with
    | Sense.minimize => decide (o.f s ≤ v + o.tolerance * |v|)
    | Sense.maximize => decide (v - o.tolerance * |v| ≤ o.f s)

/-- The feasible set after freezing an objective at value `v`. -/
def freezeSet {σ : Type} (o : Objective σ) (v : Rat) (S : List σ) : List σ :=
  S.filter (freezeOK o v)

/-- Modelled from the spec: `lexicographic_optimize` of section 4.5 —
solve the objectives in priority order, freezing each achieved value
(within tolerance) before the next; the last objective's solve is reused
for extraction, and with no objectives a trivial solve returns any feasible
point. -/
def lexicographic_optimize {σ : Type} :
    List (Objective σ) → List σ → Option σ
  | [], S => S.head?
  | [o], S => solveOne o S
  | o :: o2 :: rest, S =>
    match solveOne o S with
    | none => none
    | some s => lexicographic_optimize (o2 :: rest) (freezeSet o (o.f s) S)

/-- Claim C1: over a non-empty feasible set and objectives `[O1, O2]`
(with a non-negative tolerance on `O1`), the optimizer returns a schedule
whose `O1` value lies within `O1`'s tolerance window of the `O1`-alone
optimum (equal to it when the tolerance is 0, the freeze then being a hard
equality on `O1`'s value), and whose `O2` value is optimal among all
feasible points satisfying that frozen `O1` constraint. -/
theorem lexicographic_optimize_two {σ : Type} (o1 o2 : Objective σ)
    (S : List σ) (hS : S ≠ []) (htol : 0 ≤ o1.tolerance) :
    ∃ s1 s, solveOne o1 S = some s1 ∧
      lexicographic_optimize [o1, o2] S = some s ∧
      (∀ a ∈ S, objKey o1 s1 ≤ objKey o1 a) ∧
      s ∈ S ∧ freezeOK o1 (o1.f s1) s = true ∧
      (o1.sense = Sense.minimize →
        o1.f s1 ≤ o1.f s ∧ o1.f s ≤ o1.f s1 + o1.tolerance * |o1.f s1|) ∧
      (o1.sense = Sense.maximize →
        o1.f s1 - o1.tolerance * |o1.f s1| ≤ o1.f s ∧ o1.f s ≤ o1.f s1) ∧
      (o1.tolerance = 0 → o1.f s = o1.f s1) ∧
      (∀ a ∈ S, freezeOK o1 (o1.f s1) a = true → objKey o2 s ≤ objKey o2 a) := by
  rcases h1 : S.argmin (objKey o1) with _ | s1
  · exact absurd (List.argmin_eq_none.mp h1) hS
  have hm1 : s1 ∈ S.argmin (objKey o1) := Option.mem_def.mpr h1
  have hs1S : s1 ∈ S := List.argmin_mem hm1
  have hopt1 : ∀ a ∈ S, objKey o1 s1 ≤ objKey o1 a :=
    fun a ha => List.le_of_mem_argmin ha hm1
  have hfz1 : freezeOK o1 (o1.f s1) s1 = true := by
    unfold freezeOK
    by_cases ht : o1.tolerance = 0
    · rw [if_pos ht]
      simp
    · rw [if_neg ht]
      have habs : 0 ≤ o1.tolerance * |o1.f s1| :=
        mul_nonneg htol (abs_nonneg _)
      cases hsen : o1.sense
      · simp only [decide_eq_true_eq]
        linarith
      · simp only [decide_eq_true_eq]
        linarith
  have hS1ne : freezeSet o1 (o1.f s1) S ≠ [] :=
    List.ne_nil_of_mem (List.mem_filter.mpr ⟨hs1S, hfz1⟩)
  rcases h2 : (freezeSet o1 (o1.f s1) S).argmin (objKey o2) with _ | s
  · exact absurd (List.argmin_eq_none.mp h2) hS1ne
  have hm2 : s ∈ (freezeSet o1 (o1.f s1) S).argmin (objKey o2) :=
    Option.mem_def.mpr h2
  have hsS1 : s ∈ freezeSet o1 (o1.f s1) S := List.argmin_mem hm2
  obtain ⟨hsS, hfzs⟩ := List.mem_filter.mp hsS1
  refine ⟨s1, s, h1, ?_, hopt1, hsS, hfzs, ?_, ?_, ?_, ?_⟩
  · rw [lexicographic_optimize]
    rw [show solveOne o1 S = some s1 from h1]
    exact h2
  · intro hsen
    constructor
    · have := hopt1 s hsS
      rw [objKey, objKey, hsen] at this
      exact this
    · rw [freezeOK] at hfzs
      by_cases ht : o1.tolerance = 0
      · rw [if_pos ht] at hfzs
        have heq : o1.f s = o1.f s1 := by simpa using hfzs
      
        rw [heq, ht]
        have habs : (0 : Rat) ≤ |o1.f s1| := abs_nonneg _
        linarith
      · rw [if_neg ht, hsen] at hfzs
        simpa using hfzs
  · intro hsen
    constructor
    · rw [freezeOK] at hfzs
      by_cases ht : o1.tolerance = 0
      · rw [if_pos ht] at hfzs
        have heq : o1.f s = o1.f s1 := by simpa using hfzs
        rw [heq, ht]
        have habs : (0 : Rat) ≤ |o1.f s1| := abs_nonneg _
        linarith
      · rw [if_neg ht, hsen] at hfzs
        simpa using hfzs
    · have := hopt1 s hsS
      rw [objKey, objKey, hsen] at this
      dsimp only at this
      linarith
  · intro ht
    rw [freezeOK, if_pos ht] at hfzs
    simpa using hfzs
  · intro a haS hfa
    exact List.le_of_mem_argmin (List.mem_filter.mpr ⟨haS, hfa⟩) hm2

/-- Minimize the value itself (tolerance 0). -/
def lexO1 : Objective Nat := ⟨fun n => (n : Rat), Sense.minimize, 0⟩

/-- Second-priority objective: maximize the value (tolerance 0). -/
def lexO2 : Objective Nat := ⟨fun n => (n : Rat), Sense.maximize, 0⟩

/-- Witness for `lexicographic_optimize_two` on the feasible set
`[2, 1, 3]`. -/
theorem lexicographic_optimize_two_witness :
    ∃ s1 s, solveOne lexO1 [2, 1, 3] = some s1 ∧
      lexicographic_optimize [lexO1, lexO2] [2, 1, 3] = some s ∧
      (∀ a ∈ [2, 1, 3], objKey lexO1 s1 ≤ objKey lexO1 a) ∧
      s ∈ [2, 1, 3] ∧ freezeOK lexO1 (lexO1.f s1) s = true ∧
      (lexO1.sense = Sense.minimize →
        lexO1.f s1 ≤ lexO1.f s ∧
          lexO1.f s ≤ lexO1.f s1 + lexO1.tolerance * |lexO1.f s1|) ∧
      (lexO1.sense = Sense.maximize →
        lexO1.f s1 - lexO1.tolerance * |lexO1.f s1| ≤ lexO1.f s ∧
          lexO1.f s ≤ lexO1.f s1) ∧
      (lexO1.tolerance = 0 → lexO1.f s = lexO1.f s1) ∧
      (∀ a ∈ [2, 1, 3], freezeOK lexO1 (lexO1.f s1) a = true →
        objKey lexO2 s ≤ objKey lexO2 a) :=
  lexicographic_optimize_two lexO1 lexO2 [2, 1, 3] (by decide) (le_refl 0)

end Satisfaculty
